import Mathlib

/-!
Verification of the job-board core logic (`src/lib/jobs.ts` and the filter
logic of `src/components/JobExplorer.tsx`) against its specification.

Strings are modelled as `List Char` (Unicode scalar values).  JavaScript's
`\s` character class and `String.prototype.trim` are modelled by the
whitespace set `isWsB` (ASCII whitespace plus NBSP), `toLowerCase` by ASCII
lowercasing, and `localeCompare` / the default `Array.prototype.sort`
string comparison by lexicographic comparison of character code points.
`Array.prototype.sort` is stable (ES2019), so it is modelled by a stable
insertion sort over the translated comparator.
-/

namespace JobBoard

/-- JS whitespace model: ASCII whitespace characters plus NBSP (U+00A0). -/
def isWsB (c : Char) : Bool :=
  c == ' ' || c == '\t' || c == '\n' || c == '\r' ||
    c.toNat == 11 || c.toNat == 12 || c.toNat == 160

/-- Case-insensitive character match for a lowercase-ASCII (or symbol)
pattern character `p`: `c` matches if it equals `p`, or `p` is a lowercase
ASCII letter and `c` is its uppercase form.  Models the `i` regex flag for
the ASCII patterns appearing in `cleanSnippet`. -/
def ciEq (p c : Char) : Bool :=
  c == p || (decide (97 ≤ p.toNat) && decide (p.toNat ≤ 122) && c.toNat + 32 == p.toNat)

/-- Case-insensitively strip the pattern `ps` from the front of a string,
returning the rest on success. -/
def stripCI : List Char → List Char → Option (List Char)
  | [], s => some s
  | _ :: _, [] => none
  | p :: ps, c :: cs => if ciEq p c then stripCI ps cs else none

/-- Strip the exact pattern `ps` from the front of a string. -/
def stripEq : List Char → List Char → Option (List Char)
  | [], s => some s
  | _ :: _, [] => none
  | p :: ps, c :: cs => if p == c then stripEq ps cs else none

/-- Fuel-driven literal substring replacement, scanning left to right over
non-overlapping occurrences: the semantics of JS `s.split(pat).join(repl)`
for a non-empty `pat`.  Fuel `s.length` always suffices. -/
def replF (pat repl : List Char) : Nat → List Char → List Char
  | 0, s => s
  | _ + 1, [] => []
  | f + 1, c :: cs =>
    match stripEq pat (c :: cs) with
    | some r => repl ++ replF pat repl f r
    | none => c :: replF pat repl f cs

/-- JS `s.split(pat).join(repl)` for non-empty `pat`. -/
def replaceSubstr (pat repl : List Char) (s : List Char) : List Char :=
  replF pat repl s.length s

/-- Step 2 of `cleanSnippet`: decode the fixed entity set, by sequential
whole-string replacement in the object-literal order of `HTML_ENTITIES`. -/
def decodeEntities (s : List Char) : List Char :=
  replaceSubstr ['&', '#', '3', '9', ';'] ['\'']
    (replaceSubstr ['&', 'q', 'u', 'o', 't', ';'] ['"']
      (replaceSubstr ['&', 'g', 't', ';'] ['>']
        (replaceSubstr ['&', 'l', 't', ';'] ['<']
          (replaceSubstr ['&', 'a', 'm', 'p', ';'] ['&']
            (replaceSubstr ['&', 'n', 'b', 's', 'p', ';'] [' '] s)))))

/-- Match `>` at the head, returning the rest. -/
def expectGt : List Char → Option (List Char)
  | '>' :: r => some r
  | _ => none

/-- Matcher for `/<br\s*\/?>/i` at the head of the string (returns the rest
after the match). -/
def mBrR (s : List Char) : Option (List Char) :=
  match stripCI ['<', 'b', 'r'] s with
  | none => none
  | some r1 =>
    match r1.dropWhile isWsB with
    | '/' :: '>' :: r => some r
    | '>' :: r => some r
    | _ => none

/-- Matcher for `/<\/?word>/i` at the head of the string.  Since `word`
starts with a letter, the regex's optional `\/?` is deterministic. -/
def mTagR (word : List Char) : List Char → Option (List Char)
  | [] => none
  | c :: rest =>
    if c = '<' then
      match rest with
      | '/' :: rest2 => (stripCI word rest2).bind expectGt
      | _ => (stripCI word rest).bind expectGt
    else none

/-- Matcher for the catch-all `/<\/?[^>]+>/` at the head of the string;
equivalent to `<[^>]+>` since `/` is itself a `[^>]` character. -/
def m7R : List Char → Option (List Char)
  | [] => none
  | c :: rest =>
    if c = '<' then
      match rest.takeWhile (fun d => !(d == '>')) with
      | [] => none
      | _ :: _ => expectGt (rest.dropWhile (fun d => !(d == '>')))
    else none

/-- Fuel-driven global regex replacement: scan left to right, replacing each
leftmost match (the matcher returns the rest of the string after the match)
and continuing after it.  All matchers used consume at least one character,
so fuel `s.length` suffices. -/
def gsubF (try_ : List Char → Option (List Char)) (repl : List Char) :
    Nat → List Char → List Char
  | 0, s => s
  | _ + 1, [] => []
  | f + 1, c :: cs =>
    match try_ (c :: cs) with
    | some r => repl ++ gsubF try_ repl f r
    | none => c :: gsubF try_ repl f cs

/-- Steps 3–7 of `cleanSnippet`: the six tag-replacement regex passes. -/
def stripMarkup (s : List Char) : List Char :=
  let s3 := gsubF mBrR [' '] s.length s
  let s4 := gsubF (mTagR ['l', 'i']) [' ', '•', ' '] s3.length s3
  let s5 := gsubF (mTagR ['s', 't', 'r', 'o', 'n', 'g']) [] s4.length s4
  let s5b := gsubF (mTagR ['e', 'm']) [] s5.length s5
  let s6 := gsubF (mTagR ['p']) [' '] s5b.length s5b
  let s6b := gsubF (mTagR ['u', 'l']) [' '] s6.length s6
  gsubF m7R [' '] s6b.length s6b

/-- Fuel-driven whitespace-run collapsing: the semantics of
`s.replace(/\s+/g, " ")`. -/
def collapseF : Nat → List Char → List Char
  | 0, s => s
  | _ + 1, [] => []
  | f + 1, c :: cs =>
    if isWsB c then ' ' :: collapseF f (cs.dropWhile isWsB)
    else c :: collapseF f cs

/-- `s.replace(/\s+/g, " ")`. -/
def collapseWs (s : List Char) : List Char :=
  collapseF s.length s

/-- Remove the trailing whitespace run. -/
def trimRight (l : List Char) : List Char :=
  (l.reverse.dropWhile isWsB).reverse

/-- JS `String.prototype.trim`: remove leading and trailing whitespace. -/
def trimWs (s : List Char) : List Char :=
  trimRight (s.dropWhile isWsB)

/-- The sanitizer pipeline before the emptiness check and truncation:
decode entities, strip markup, collapse whitespace, trim. -/
def cleanCore (s : List Char) : List Char :=
  trimWs (collapseWs (stripMarkup (decodeEntities s)))

/-- `cleanSnippet` from `src/lib/jobs.ts`.  `none` models JS `undefined`;
the falsy check `!snippet` also maps the empty string to `none`. -/
def cleanSnippet : Option String → Option String
  | none => none
  | some s =>
    if s.data = [] then none
    else
      let r := cleanCore s.data
      if r = [] then none
      else some (String.mk (if r.length > 220 then trimWs (r.take 217) ++ ['…'] else r))

/-! ### Data model, sorting, stats, and filtering -/

/-- The two-valued `visa_status` enum. -/
inductive VisaStatus where
  | mentioned
  | notMentioned
deriving DecidableEq, Repr

/-- Raw persisted job record (`RawJob` in `src/lib/jobs.ts`). -/
structure RawJob where
  title : String
  company : String
  country : String
  location : String
  visa_status : VisaStatus
  visa_snippet : Option String
  job_type : String
  reason : String
  link : String
  source : String
deriving DecidableEq, Repr

/-- Normalized job (`Job` in `src/lib/jobs.ts`). -/
structure Job where
  title : String
  company : String
  country : String
  location : String
  visaStatus : VisaStatus
  visaSnippet : Option String
  jobType : String
  reason : String
  link : String
  source : String
deriving DecidableEq, Repr

/-- Field renaming plus snippet sanitization: the body of the `map` in
`getJobs`. -/
def normalizeJob (job : RawJob) : Job :=
  { title := job.title
    company := job.company
    country := job.country
    location := job.location
    visaStatus := job.visa_status
    visaSnippet := cleanSnippet job.visa_snippet
    jobType := job.job_type
    reason := job.reason
    link := job.link
    source := job.source }

/-- Lexicographic code-point comparison of character lists: the model of
`localeCompare` and of the default `Array.prototype.sort` string order. -/
def lexCmp : List Char → List Char → Ordering
  | [], [] => .eq
  | [], _ :: _ => .lt
  | _ :: _, [] => .gt
  | a :: as, b :: bs =>
    if a.toNat < b.toNat then .lt
    else if b.toNat < a.toNat then .gt
    else lexCmp as bs

/-- String comparison used for `localeCompare` and default `sort()`. -/
def strCmp (a b : String) : Ordering := lexCmp a.data b.data

/-- The comparator passed to `mapped.sort` in `getJobs`. -/
def jobCmp (a b : Job) : Ordering :=
  if a.visaStatus ≠ b.visaStatus then
    if a.visaStatus = .mentioned then .lt else .gt
  else if a.country ≠ b.country then strCmp a.country b.country
  else strCmp a.company b.company

/-- Insert `x` into `l`, after every element comparing `gt`-free before it:
the insertion step of a stable comparison sort. -/
def insCmp (cmp : α → α → Ordering) (x : α) : List α → List α
  | [] => [x]
  | y :: ys => if cmp x y = .gt then y :: insCmp cmp x ys else x :: y :: ys

/-- Stable insertion sort: the model of `Array.prototype.sort` (stable per
ES2019) under a consistent comparator. -/
def sortCmp (cmp : α → α → Ordering) : List α → List α
  | [] => []
  | x :: xs => insCmp cmp x (sortCmp cmp xs)

/-- `getJobs`, parametrized by the raw dataset (`src/data/jobs.json` is a
build-time artifact outside `src/`): map to normalized jobs, then sort. -/
def getJobsFrom (raw : List RawJob) : List Job :=
  sortCmp jobCmp (raw.map normalizeJob)

/-- First-occurrence deduplication: `Array.from(new Set(xs))`. -/
def dedupAux (seen : List String) : List String → List String
  | [] => []
  | x :: xs => if x ∈ seen then dedupAux seen xs else x :: dedupAux (x :: seen) xs

/-- `Array.from(new Set(xs))`. -/
def dedupFirst (l : List String) : List String := dedupAux [] l

/-- The record returned by `getJobStats`. -/
structure JobStats where
  total : Nat
  visaMentioned : Nat
  visaNotMentioned : Nat
  countries : List String
  jobTypes : List String
deriving Repr

/-- `getJobStats` from `src/lib/jobs.ts`. -/
def getJobStats (jobs : List Job) : JobStats :=
  let visaMentioned := (jobs.filter (fun j => j.visaStatus == .mentioned)).length
  { total := jobs.length
    visaMentioned := visaMentioned
    visaNotMentioned := jobs.length - visaMentioned
    countries := sortCmp strCmp (dedupFirst (jobs.map (·.country)))
    jobTypes := sortCmp strCmp (dedupFirst (jobs.map (·.jobType))) }

/-- ASCII lowercasing of one character: the model of `toLowerCase` for the
ASCII inputs relevant here. -/
def lowerChar (c : Char) : Char :=
  if 65 ≤ c.toNat ∧ c.toNat ≤ 90 then Char.ofNat (c.toNat + 32) else c

/-- `s.toLowerCase()`. -/
def jsLower (s : String) : String := String.mk (s.data.map lowerChar)

/-- `s.trim()`. -/
def jsTrim (s : String) : String := String.mk (trimWs s.data)

/-- Does `needle` occur at the front of `hay`? -/
def beginsWith : List Char → List Char → Bool
  | [], _ => true
  | _ :: _, [] => false
  | a :: as, b :: bs => a == b && beginsWith as bs

/-- JS `hay.includes(needle)`: substring occurrence. -/
def containsSub (needle : List Char) : List Char → Bool
  | [] => beginsWith needle []
  | c :: cs => beginsWith needle (c :: cs) || containsSub needle cs

/-- The four filter selections held by `JobExplorer` (`"All"` is the
match-all sentinel for country and job type; `none` models the `"All"`
member of the `VisaStatus | "All"` union). -/
structure FilterState where
  country : String
  jobType : String
  visaStatus : Option VisaStatus
  searchTerm : String

/-- The filtering predicate applied to each job inside `filteredJobs` in
`src/components/JobExplorer.tsx` (the body of `jobs.filter`). -/
def jobPass (f : FilterState) (j : Job) : Bool :=
  if f.country != "All" && j.country != f.country then false
  else if f.jobType != "All" && j.jobType != f.jobType then false
  else if (match f.visaStatus with
           | some v => j.visaStatus != v
           | none => false) then false
  else if jsTrim f.searchTerm != "" then
    containsSub (jsLower (jsTrim f.searchTerm)).data
      (jsLower (j.title ++ " " ++ j.company ++ " " ++ j.reason)).data
  else true

/-- `filteredJobs` from `JobExplorer`. -/
def filteredJobs (f : FilterState) (jobs : List Job) : List Job :=
  jobs.filter (jobPass f)

/-- `priorityJobs`: the visa-mentioned group of a visible subset. -/
def priorityJobs (v : List Job) : List Job :=
  v.filter (fun j => j.visaStatus == .mentioned)

/-- `otherJobs`: the complement group of a visible subset. -/
def otherJobs (v : List Job) : List Job :=
  v.filter (fun j => j.visaStatus != .mentioned)

/-- The fixed two-valued visa priority: "Mentioned" sorts before
"Not mentioned". -/
def visaRank : VisaStatus → Nat
  | .mentioned => 0
  | .notMentioned => 1

/-- Strict ascending string order (model of the default string order). -/
def strLt (a b : String) : Prop := strCmp a b = .lt

/-- The three-key lexicographic sort order of §4.1, stated as the spec
describes it: visa priority first, then country, then company. -/
def jobLe (a b : Job) : Prop :=
  visaRank a.visaStatus < visaRank b.visaStatus ∨
    (a.visaStatus = b.visaStatus ∧
      (strLt a.country b.country ∨
        (a.country = b.country ∧ (strLt a.company b.company ∨ a.company = b.company))))

/-- The three-key sort key of a job. -/
def jobKey (j : Job) : VisaStatus × String × String := (j.visaStatus, j.country, j.company)

/-- Does the string contain a `>` character? -/
def hasGt : List Char → Bool
  | [] => false
  | c :: cs => c == '>' || hasGt cs

/-- After a `<`, no complete tag can start here: either the very next
character closes it immediately (`<>` matches no rule) or no `>` occurs at
all. -/
def gtOk : List Char → Bool
  | [] => true
  | c :: cs => c == '>' || !hasGt cs

/-- The string contains no complete tag: no substring `<` ++ body ++ `>`
with a non-empty `>`-free body. -/
def noTag : List Char → Bool
  | [] => true
  | c :: cs => (if c = '<' then gtOk cs else true) && noTag cs

/-- Normalization invariant of collapsed whitespace: every whitespace
character is a plain space and no whitespace character is followed by
another. -/
def wsOK : List Char → Bool
  | [] => true
  | [c] => !(isWsB c) || c == ' '
  | c :: d :: r => (!(isWsB c) || (c == ' ' && !(isWsB d))) && wsOK (d :: r)

/-! ### Claims -/

/-- C1 (counterexample): the claim that entity-encoded markup is NOT treated
as structural markup fails.  The input `"a &lt;br&gt; b"` contains no
literal `<`, yet after entity decoding the tag text `<br>` is removed by the
line-break rule of step 3: the output is `"a b"`, which no longer contains
the tag text `br`. -/
theorem c1_encoded_tag_stripped_cex :
    ('<' ∉ ("a &lt;br&gt; b").data) ∧
    cleanSnippet (some "a &lt;br&gt; b") = some "a b" ∧
    containsSub "br".data ("a b").data = false := by decide

/-- C1 (amended): because entity decoding (step 2) happens before the
structural rules (steps 3–7), entity-encoded markup IS recognized as
structural markup once decoded: sanitizing `"x&lt;br&gt;y"` decodes the
entities to the literal tag `<br>`, which step 3 then replaces with a
space, yielding `"x y"`. -/
theorem c1_encoded_tag_is_structural :
    cleanSnippet (some "x&lt;br&gt;y") = some "x y" := by decide

/-- C8: `getJobStats` returns `total` equal to the list length,
`visaMentioned` equal to the number of jobs with visa status "Mentioned",
and `visaNotMentioned` computed as `total - visaMentioned`, so the two
counts always sum to `total` exactly. -/
theorem c8_stats_counts : ∀ jobs : List Job,
    (getJobStats jobs).total = jobs.length ∧
    (getJobStats jobs).visaMentioned = jobs.countP (fun j => j.visaStatus == .mentioned) ∧
    (getJobStats jobs).visaNotMentioned =
      (getJobStats jobs).total - (getJobStats jobs).visaMentioned ∧
    (getJobStats jobs).visaMentioned + (getJobStats jobs).visaNotMentioned =
      (getJobStats jobs).total := by
  intro jobs
  refine ⟨rfl, ?_, rfl, ?_⟩
  · simp [getJobStats, List.countP_eq_length_filter]
  · have h : (jobs.filter (fun j => j.visaStatus == .mentioned)).length ≤ jobs.length :=
      List.length_filter_le _ _
    simp only [getJobStats]
    omega

/-- The filtering predicate passes exactly the conjunction of the four
criteria described in §4.3 of the spec. -/
theorem jobPass_iff (f : FilterState) (j : Job) : jobPass f j = true ↔
    ((f.country = "All" ∨ j.country = f.country) ∧
     (f.jobType = "All" ∨ j.jobType = f.jobType) ∧
     (f.visaStatus = none ∨ f.visaStatus = some j.visaStatus) ∧
     (jsTrim f.searchTerm = "" ∨
       containsSub (jsLower (jsTrim f.searchTerm)).data
         (jsLower (j.title ++ " " ++ j.company ++ " " ++ j.reason)).data = true)) := by
  rcases hv : f.visaStatus with _ | v <;>
    [skip; by_cases h6 : j.visaStatus = v] <;>
    by_cases h1 : f.country = "All" <;>
    by_cases h2 : j.country = f.country <;>
    by_cases h3 : f.jobType = "All" <;>
    by_cases h4 : j.jobType = f.jobType <;>
    by_cases h5 : jsTrim f.searchTerm = "" <;>
    simp_all [jobPass] <;>
    exact fun h => absurd h.symm h6

/-- C6: a job is in the visible subset iff it is in the input list and
passes all four criteria conjointly: country selection is "All" or equals
the job's country, job-type selection is "All" or equals the job's type,
visa-status selection is "All" (modelled `none`) or equals the job's visa
status, and the trimmed keyword is empty or is a case-insensitive substring
of `title ++ " " ++ company ++ " " ++ reason`. -/
theorem c6_filter_conjunction : ∀ (f : FilterState) (jobs : List Job) (j : Job),
    j ∈ filteredJobs f jobs ↔
      (j ∈ jobs ∧
       (f.country = "All" ∨ j.country = f.country) ∧
       (f.jobType = "All" ∨ j.jobType = f.jobType) ∧
       (f.visaStatus = none ∨ f.visaStatus = some j.visaStatus) ∧
       (jsTrim f.searchTerm = "" ∨
         containsSub (jsLower (jsTrim f.searchTerm)).data
           (jsLower (j.title ++ " " ++ j.company ++ " " ++ j.reason)).data = true)) := by
  intro f jobs j
  rw [filteredJobs, List.mem_filter, jobPass_iff]

/-- Count decomposition of a list across a predicate and its complement. -/
theorem count_filter_not {α : Type} (p : α → Bool) [DecidableEq α] (l : List α) (j : α) :
    (l.filter p).count j + (l.filter (fun x => !p x)).count j = l.count j := by
  induction l with
  | nil => simp
  | cons a t ih =>
    by_cases hp : p a <;> simp [List.filter_cons, hp, List.count_cons] <;> omega

/-- C7: for every visible subset `v`, the priority group is exactly the
order-preserving subsequence of the visa-mentioned jobs of `v`, the
secondary group is exactly the subsequence of the others, and every
occurrence of a job in `v` lands in exactly one of the two groups (the
multiplicities of the two groups sum to those of `v`). -/
theorem c7_partition : ∀ v : List Job,
    (priorityJobs v).Sublist v ∧ (otherJobs v).Sublist v ∧
    (∀ j, j ∈ priorityJobs v ↔ j ∈ v ∧ j.visaStatus = .mentioned) ∧
    (∀ j, j ∈ otherJobs v ↔ j ∈ v ∧ j.visaStatus ≠ .mentioned) ∧
    (∀ j, (priorityJobs v).count j + (otherJobs v).count j = v.count j) := by
  intro v
  refine ⟨List.filter_sublist _, List.filter_sublist _, ?_, ?_, ?_⟩
  · intro j; simp [priorityJobs, List.mem_filter]
  · intro j; simp [otherJobs, List.mem_filter]
  · intro j
    exact count_filter_not (fun j => j.visaStatus == .mentioned) v j

/-! ### Order-theoretic facts about the comparators and the stable sort -/

theorem char_toNat_inj {a b : Char} (h : a.toNat = b.toNat) : a = b :=
  Char.eq_of_val_eq (UInt32.toNat.inj h)

theorem lexCmp_self : ∀ l : List Char, lexCmp l l = .eq := by
  intro l
  induction l with
  | nil => rfl
  | cons a as ih => simp [lexCmp, ih]

theorem lexCmp_eq_iff : ∀ a b : List Char, lexCmp a b = .eq ↔ a = b := by
  intro a
  induction a with
  | nil => intro b; cases b <;> simp [lexCmp]
  | cons x xs ih =>
    intro b
    cases b with
    | nil => simp [lexCmp]
    | cons y ys =>
      simp only [lexCmp]
      split <;> rename_i h1
      · constructor
        · intro h; cases h
        · intro h
          injection h with hx hxs
          exact absurd (hx ▸ h1) (Nat.lt_irrefl _)
      · split <;> rename_i h2
        · constructor
          · intro h; cases h
          · intro h
            injection h with hx hxs
            exact absurd (hx ▸ h2) (Nat.lt_irrefl _)
        · have hx : x = y := char_toNat_inj (by omega)
          subst hx
          rw [ih]
          constructor
          · intro h; rw [h]
          · intro h; injection h

theorem lexCmp_swap : ∀ a b : List Char, lexCmp b a = (lexCmp a b).swap := by
  intro a
  induction a with
  | nil => intro b; cases b <;> rfl
  | cons x xs ih =>
    intro b
    cases b with
    | nil => rfl
    | cons y ys =>
      simp only [lexCmp]
      rcases Nat.lt_trichotomy x.toNat y.toNat with h | h | h
      · have h1 : ¬ (y.toNat < x.toNat) := by omega
        simp [h, h1, Ordering.swap]
      · have h1 : ¬ (y.toNat < x.toNat) := by omega
        have h2 : ¬ (x.toNat < y.toNat) := by omega
        simp [h1, h2, ih]
      · have h2 : ¬ (x.toNat < y.toNat) := by omega
        simp [h, h2, Ordering.swap]

theorem lexCmp_ngt_trans : ∀ a b c : List Char,
    lexCmp a b ≠ .gt → lexCmp b c ≠ .gt → lexCmp a c ≠ .gt := by
  intro a
  induction a with
  | nil => intro b c _ _; cases c <;> simp [lexCmp]
  | cons x xs ih =>
    intro b c h1 h2
    cases b with
    | nil => simp [lexCmp] at h1
    | cons y ys =>
      cases c with
      | nil => simp [lexCmp] at h2
      | cons z zs =>
        simp only [lexCmp] at h1 h2 ⊢
        split at h1 <;> rename_i hxy
        · split <;> rename_i hxz
          · simp
          · split <;> rename_i hzx
            · exfalso
              split at h2 <;> rename_i hyz
              · omega
              · split at h2 <;> rename_i hzy
                · exact h2 rfl
                · omega
            · simp [lexCmp_eq_iff]
              intro hxs
              exfalso
              split at h2 <;> rename_i hyz
              · omega
              · split at h2 <;> rename_i hzy
                · exact h2 rfl
                · omega
        · split at h1 <;> rename_i hyx
          · exact absurd rfl h1
          · have hxy' : x.toNat = y.toNat := by omega
            split at h2 <;> rename_i hyz
            · split <;> rename_i hxz
              · simp
              · omega
            · split at h2 <;> rename_i hzy
              · exact absurd rfl h2
              · have hxz' : x.toNat = z.toNat := by omega
                simp only [if_neg (by omega : ¬ x.toNat < z.toNat),
                  if_neg (by omega : ¬ z.toNat < x.toNat)]
                exact ih ys zs h1 h2

theorem lexCmp_gt_iff (a b : List Char) : lexCmp a b = .gt ↔ lexCmp b a = .lt := by
  rw [lexCmp_swap b a]
  cases h : lexCmp b a <;> simp [Ordering.swap]

theorem strCmp_eq_iff (a b : String) : strCmp a b = .eq ↔ a = b := by
  rw [strCmp, lexCmp_eq_iff]
  constructor
  · intro h
    cases a; cases b
    exact congrArg String.mk h
  · intro h; rw [h]

/-- Elements of an insertion are the new element plus the old ones. -/
theorem mem_insCmp (cmp : α → α → Ordering) (x : α) (l : List α) (a : α) :
    a ∈ insCmp cmp x l ↔ a = x ∨ a ∈ l := by
  induction l with
  | nil => simp [insCmp]
  | cons y ys ih =>
    simp only [insCmp]
    split
    · rw [List.mem_cons, ih, List.mem_cons]
      tauto
    · rw [List.mem_cons]

theorem perm_insCmp (cmp : α → α → Ordering) (x : α) (l : List α) :
    (insCmp cmp x l).Perm (x :: l) := by
  induction l with
  | nil => simp [insCmp]
  | cons y ys ih =>
    simp only [insCmp]
    split
    · exact (ih.cons y).trans (List.Perm.swap x y ys)
    · exact List.Perm.refl _

theorem sortCmp_perm (cmp : α → α → Ordering) (l : List α) :
    (sortCmp cmp l).Perm l := by
  induction l with
  | nil => exact List.Perm.refl _
  | cons x xs ih =>
    exact (perm_insCmp cmp x (sortCmp cmp xs)).trans (ih.cons x)

theorem pairwise_insCmp (cmp : α → α → Ordering)
    (H1 : ∀ a b : α, cmp a b = .gt → cmp b a ≠ .gt)
    (H2 : ∀ a b c : α, cmp a b ≠ .gt → cmp b c ≠ .gt → cmp a c ≠ .gt)
    (x : α) (l : List α) (hl : l.Pairwise (fun a b => cmp a b ≠ .gt)) :
    (insCmp cmp x l).Pairwise (fun a b => cmp a b ≠ .gt) := by
  induction l with
  | nil => simp [insCmp]
  | cons y ys ih =>
    rcases List.pairwise_cons.mp hl with ⟨hy, hys⟩
    simp only [insCmp]
    split <;> rename_i hgt
    · refine List.pairwise_cons.mpr ⟨?_, ih hys⟩
      intro a ha
      rcases (mem_insCmp cmp x ys a).mp ha with rfl | ha
      · exact H1 _ y hgt
      · exact hy a ha
    · refine List.pairwise_cons.mpr ⟨?_, hl⟩
      intro a ha
      rcases List.mem_cons.mp ha with rfl | ha
      · exact hgt
      · exact H2 x y a hgt (hy a ha)

theorem sortCmp_pairwise (cmp : α → α → Ordering)
    (H1 : ∀ a b : α, cmp a b = .gt → cmp b a ≠ .gt)
    (H2 : ∀ a b c : α, cmp a b ≠ .gt → cmp b c ≠ .gt → cmp a c ≠ .gt)
    (l : List α) : (sortCmp cmp l).Pairwise (fun a b => cmp a b ≠ .gt) := by
  induction l with
  | nil => simp [sortCmp]
  | cons x xs ih => exact pairwise_insCmp cmp H1 H2 x (sortCmp cmp xs) ih

/-- Stability of the insertion step, positive case: inserting an element
satisfying `p` when `p`-elements never compare strictly below `x`. -/
theorem filter_insCmp_pos (cmp : α → α → Ordering) (p : α → Bool) (x : α) (l : List α)
    (hx : p x = true) (hcut : ∀ y, p y = true → cmp x y ≠ .gt) :
    (insCmp cmp x l).filter p = x :: l.filter p := by
  induction l with
  | nil => simp [insCmp, hx]
  | cons y ys ih =>
    simp only [insCmp]
    split <;> rename_i hgt
    · have hpy : p y = false := by
        cases hy : p y
        · rfl
        · exact absurd hgt (hcut y hy)
      simp only [List.filter_cons, hpy]
      simp only [ih]
      simp
    · simp [List.filter_cons, hx]

theorem filter_insCmp_neg (cmp : α → α → Ordering) (p : α → Bool) (x : α) (l : List α)
    (hx : p x = false) :
    (insCmp cmp x l).filter p = l.filter p := by
  induction l with
  | nil => simp [insCmp, hx]
  | cons y ys ih =>
    simp only [insCmp]
    split
    · simp [List.filter_cons, ih]
    · simp [List.filter_cons, hx]

/-- Stability of the sort: on any class of pairwise `cmp`-equal elements,
the sort is the identity on the filtered subsequence. -/
theorem sortCmp_filter (cmp : α → α → Ordering) (p : α → Bool)
    (Hsame : ∀ a b : α, p a = true → p b = true → cmp a b = .eq)
    (l : List α) : (sortCmp cmp l).filter p = l.filter p := by
  induction l with
  | nil => rfl
  | cons x xs ih =>
    simp only [sortCmp]
    cases hx : p x
    · rw [filter_insCmp_neg cmp p x _ hx, ih]
      simp [List.filter_cons, hx]
    · rw [filter_insCmp_pos cmp p x _ hx
        (fun y hy => by rw [Hsame x y hx hy]; intro h; cases h), ih]
      simp [List.filter_cons, hx]


theorem ordering_ngt_iff (o : Ordering) : o ≠ .gt ↔ o = .lt ∨ o = .eq := by
  cases o <;> simp

theorem jobCmp_ngt_iff (a b : Job) : jobCmp a b ≠ .gt ↔ jobLe a b := by
  unfold jobCmp jobLe
  by_cases hv : a.visaStatus = b.visaStatus
  · rw [if_neg (by simp [hv])]
    have hrank : ¬ visaRank a.visaStatus < visaRank b.visaStatus := by
      rw [hv]; exact Nat.lt_irrefl _
    by_cases hc : a.country = b.country
    · rw [if_neg (by simp [hc])]
      constructor
      · intro h
        rcases (ordering_ngt_iff _).mp h with h' | h'
        · exact Or.inr ⟨hv, Or.inr ⟨hc, Or.inl h'⟩⟩
        · exact Or.inr ⟨hv, Or.inr ⟨hc, Or.inr ((strCmp_eq_iff _ _).mp h')⟩⟩
      · intro h
        rcases h with h | ⟨-, h | ⟨-, h | h⟩⟩
        · exact absurd h hrank
        · have he := (strCmp_eq_iff a.country b.country).mpr hc
          rw [strLt, he] at h
          cases h
        · rw [ordering_ngt_iff]
          exact Or.inl h
        · rw [ordering_ngt_iff]
          exact Or.inr ((strCmp_eq_iff _ _).mpr h)
    · rw [if_pos (by simp [hc])]
      constructor
      · intro h
        rcases (ordering_ngt_iff _).mp h with h' | h'
        · exact Or.inr ⟨hv, Or.inl h'⟩
        · exact absurd ((strCmp_eq_iff _ _).mp h') hc
      · intro h
        rcases h with h | ⟨-, h | ⟨h, -⟩⟩
        · exact absurd h hrank
        · rw [ordering_ngt_iff]
          exact Or.inl h
        · exact absurd h hc
  · rw [if_pos (by simp [hv])]
    cases ha : a.visaStatus <;> cases hb : b.visaStatus <;>
      simp_all [visaRank, strLt]

theorem strLt_trans {a b c : String} (h1 : strLt a b) (h2 : strLt b c) : strLt a c := by
  rw [strLt, strCmp] at *
  have hngt : lexCmp a.data c.data ≠ .gt :=
    lexCmp_ngt_trans a.data b.data c.data (by simp [h1]) (by simp [h2])
  rcases (by cases h : lexCmp a.data c.data <;> simp_all :
      lexCmp a.data c.data = .lt ∨ lexCmp a.data c.data = .eq) with h | h
  · exact h
  · exfalso
    have hac : a.data = c.data := (lexCmp_eq_iff _ _).mp h
    have := lexCmp_swap b.data c.data
    rw [h2] at this
    rw [← hac] at this
    rw [h1] at this
    cases this

theorem jobLe_total (a b : Job) : jobLe a b ∨ jobLe b a := by
  unfold jobLe
  rcases Nat.lt_trichotomy (visaRank a.visaStatus) (visaRank b.visaStatus) with h | h | h
  · exact Or.inl (Or.inl h)
  · have hv : a.visaStatus = b.visaStatus := by
      cases ha : a.visaStatus <;> cases hb : b.visaStatus <;> simp_all [visaRank]
    cases hcmp : strCmp a.country b.country with
    | lt => exact Or.inl (Or.inr ⟨hv, Or.inl hcmp⟩)
    | eq =>
      have hc : a.country = b.country := (strCmp_eq_iff _ _).mp hcmp
      cases hcmp2 : strCmp a.company b.company with
      | lt => exact Or.inl (Or.inr ⟨hv, Or.inr ⟨hc, Or.inl hcmp2⟩⟩)
      | eq => exact Or.inl (Or.inr ⟨hv, Or.inr ⟨hc, Or.inr ((strCmp_eq_iff _ _).mp hcmp2)⟩⟩)
      | gt =>
        have hlt : strCmp b.company a.company = .lt := (lexCmp_gt_iff _ _).mp hcmp2
        exact Or.inr (Or.inr ⟨hv.symm, Or.inr ⟨hc.symm, Or.inl hlt⟩⟩)
    | gt =>
      have hlt : strCmp b.country a.country = .lt := (lexCmp_gt_iff _ _).mp hcmp
      exact Or.inr (Or.inr ⟨hv.symm, Or.inl hlt⟩)
  · exact Or.inr (Or.inl h)

theorem jobLe_trans {a b c : Job} (h1 : jobLe a b) (h2 : jobLe b c) : jobLe a c := by
  rcases h1 with h1 | ⟨hv1, i1⟩
  · rcases h2 with h2 | ⟨hv2, _⟩
    · exact Or.inl (Nat.lt_trans h1 h2)
    · exact Or.inl (hv2 ▸ h1)
  · rcases h2 with h2 | ⟨hv2, i2⟩
    · exact Or.inl (hv1 ▸ h2)
    · refine Or.inr ⟨hv1.trans hv2, ?_⟩
      rcases i1 with hc1 | ⟨hc1, k1⟩
      · rcases i2 with hc2 | ⟨hc2, _⟩
        · exact Or.inl (strLt_trans hc1 hc2)
        · exact Or.inl (hc2 ▸ hc1)
      · rcases i2 with hc2 | ⟨hc2, k2⟩
        · exact Or.inl (hc1 ▸ hc2)
        · refine Or.inr ⟨hc1.trans hc2, ?_⟩
          rcases k1 with hk1 | hk1
          · rcases k2 with hk2 | hk2
            · exact Or.inl (strLt_trans hk1 hk2)
            · exact Or.inl (hk2 ▸ hk1)
          · rcases k2 with hk2 | hk2
            · exact Or.inl (hk1 ▸ hk2)
            · exact Or.inr (hk1.trans hk2)

theorem jobCmp_gt_asym : ∀ a b : Job, jobCmp a b = .gt → jobCmp b a ≠ .gt := by
  intro a b h
  rw [jobCmp_ngt_iff]
  have hnab : ¬ jobLe a b := fun hle => (jobCmp_ngt_iff a b).mpr hle h
  rcases jobLe_total a b with hab | hba
  · exact absurd hab hnab
  · exact hba

theorem jobCmp_ngt_trans : ∀ a b c : Job,
    jobCmp a b ≠ .gt → jobCmp b c ≠ .gt → jobCmp a c ≠ .gt := by
  intro a b c h1 h2
  rw [jobCmp_ngt_iff] at h1 h2 ⊢
  exact jobLe_trans h1 h2

theorem jobCmp_eq_of_key {a b : Job} (h : jobKey a = jobKey b) : jobCmp a b = .eq := by
  rw [jobKey, jobKey, Prod.mk.injEq, Prod.mk.injEq] at h
  obtain ⟨h1, h2, h3⟩ := h
  unfold jobCmp
  rw [if_neg (by simp [h1]), if_neg (by simp [h2]), h3]
  exact (strCmp_eq_iff _ _).mpr rfl

/-- C5: `getJobs` returns the normalized jobs (a permutation of the mapped
raw records) sorted ascending by the three-key lexicographic order `jobLe`
-- visa status "Mentioned" strictly before "Not mentioned" by the fixed
two-valued priority, then country, then company -- and the sort is stable:
records equal on all three keys keep their original relative order (the
filtered subsequence at every key triple is unchanged by the sort). -/
theorem c5_sorted_stable : ∀ raw : List RawJob,
    (getJobsFrom raw).Perm (raw.map normalizeJob) ∧
    (getJobsFrom raw).Pairwise jobLe ∧
    (∀ k : VisaStatus × String × String,
      (getJobsFrom raw).filter (fun j => decide (jobKey j = k)) =
        (raw.map normalizeJob).filter (fun j => decide (jobKey j = k))) := by
  intro raw
  refine ⟨sortCmp_perm _ _, ?_, ?_⟩
  · exact (sortCmp_pairwise jobCmp jobCmp_gt_asym jobCmp_ngt_trans _).imp
      (fun h => (jobCmp_ngt_iff _ _).mp h)
  · intro k
    refine sortCmp_filter jobCmp _ ?_ _
    intro x y hx hy
    exact jobCmp_eq_of_key ((of_decide_eq_true hx).trans (of_decide_eq_true hy).symm)

theorem mem_dedupAux : ∀ (l : List String) (seen : List String) (a : String),
    a ∈ dedupAux seen l ↔ a ∈ l ∧ a ∉ seen := by
  intro l
  induction l with
  | nil => intro seen a; simp [dedupAux]
  | cons x xs ih =>
    intro seen a
    by_cases hx : x ∈ seen
    · rw [dedupAux, if_pos hx]
      constructor
      · intro h
        rw [ih] at h
        exact ⟨List.mem_cons_of_mem _ h.1, h.2⟩
      · rintro ⟨h1, h2⟩
        rw [ih]
        rcases List.mem_cons.mp h1 with rfl | h1
        · exact absurd hx h2
        · exact ⟨h1, h2⟩
    · rw [dedupAux, if_neg hx]
      constructor
      · intro h
        rcases List.mem_cons.mp h with rfl | h
        · exact ⟨List.mem_cons_self _ _, hx⟩
        · rw [ih] at h
          exact ⟨List.mem_cons_of_mem _ h.1, fun hs => h.2 (List.mem_cons_of_mem _ hs)⟩
      · rintro ⟨h1, h2⟩
        rcases List.mem_cons.mp h1 with rfl | h1
        · exact List.mem_cons_self _ _
        · by_cases hax : a = x
          · subst hax; exact List.mem_cons_self _ _
          · apply List.mem_cons_of_mem
            rw [ih]
            exact ⟨h1, fun hs => (List.mem_cons.mp hs).elim hax h2⟩

theorem nodup_dedupAux : ∀ (l : List String) (seen : List String),
    (dedupAux seen l).Nodup := by
  intro l
  induction l with
  | nil => intro seen; simp [dedupAux]
  | cons x xs ih =>
    intro seen
    by_cases hx : x ∈ seen
    · rw [dedupAux, if_pos hx]; exact ih seen
    · rw [dedupAux, if_neg hx]
      refine List.nodup_cons.mpr ⟨?_, ih (x :: seen)⟩
      intro hmem
      exact ((mem_dedupAux xs (x :: seen) x).mp hmem).2 (List.mem_cons_self _ _)

theorem strCmp_gt_asym : ∀ a b : String, strCmp a b = .gt → strCmp b a ≠ .gt := by
  intro a b h
  rw [strCmp] at *
  rw [(lexCmp_gt_iff _ _).mp h]
  simp

theorem strCmp_ngt_trans : ∀ a b c : String,
    strCmp a b ≠ .gt → strCmp b c ≠ .gt → strCmp a c ≠ .gt :=
  fun a b c h1 h2 => lexCmp_ngt_trans a.data b.data c.data h1 h2

theorem sortedDistinct_props (l : List String) :
    (sortCmp strCmp (dedupFirst l)).Nodup ∧
    (sortCmp strCmp (dedupFirst l)).Pairwise strLt ∧
    ∀ a, a ∈ sortCmp strCmp (dedupFirst l) ↔ a ∈ l := by
  have hperm := sortCmp_perm strCmp (dedupFirst l)
  have hnd : (sortCmp strCmp (dedupFirst l)).Nodup :=
    hperm.nodup_iff.mpr (nodup_dedupAux l [])
  refine ⟨hnd, ?_, ?_⟩
  · have hpw := sortCmp_pairwise strCmp strCmp_gt_asym strCmp_ngt_trans (dedupFirst l)
    have := hpw.and hnd
    refine this.imp ?_
    rintro a b ⟨hngt, hne⟩
    rcases (ordering_ngt_iff _).mp hngt with h | h
    · exact h
    · exact absurd ((strCmp_eq_iff _ _).mp h) hne
  · intro a
    rw [hperm.mem_iff, dedupFirst, mem_dedupAux]
    simp

/-- C9: the `countries` and `jobTypes` sequences of `getJobStats` contain
no duplicates, are sorted strictly ascending in the default string order,
and contain exactly the distinct country (resp. job type) values occurring
in the job list. -/
theorem c9_distinct_sorted : ∀ jobs : List Job,
    (getJobStats jobs).countries.Nodup ∧
    (getJobStats jobs).countries.Pairwise strLt ∧
    (∀ c, c ∈ (getJobStats jobs).countries ↔ c ∈ jobs.map Job.country) ∧
    (getJobStats jobs).jobTypes.Nodup ∧
    (getJobStats jobs).jobTypes.Pairwise strLt ∧
    (∀ t, t ∈ (getJobStats jobs).jobTypes ↔ t ∈ jobs.map Job.jobType) := by
  intro jobs
  obtain ⟨h1, h2, h3⟩ := sortedDistinct_props (jobs.map (·.country))
  obtain ⟨h4, h5, h6⟩ := sortedDistinct_props (jobs.map (·.jobType))
  exact ⟨h1, h2, h3, h4, h5, h6⟩


theorem length_trimRight_le : ∀ l : List Char, (trimRight l).length ≤ l.length := by
  intro l
  rw [trimRight]
  calc (l.reverse.dropWhile isWsB).reverse.length
      = (l.reverse.dropWhile isWsB).length := List.length_reverse _
    _ ≤ l.reverse.length := (List.dropWhile_sublist isWsB).length_le
    _ = l.length := List.length_reverse _

theorem length_trimWs_le (l : List Char) : (trimWs l).length ≤ l.length :=
  le_trans (length_trimRight_le _) (List.dropWhile_sublist isWsB).length_le

/-- C10: any result string produced by `cleanSnippet` has length at most
220 characters including any appended ellipsis; when truncation occurred
(the collapsed result exceeded 220), the result has length at most 218. -/
theorem c10_length_budget : ∀ (s r : String), cleanSnippet (some s) = some r →
    r.data.length ≤ 220 ∧ ((cleanCore s.data).length > 220 → r.data.length ≤ 218) := by
  intro s r h
  simp only [cleanSnippet] at h
  generalize hg : cleanCore s.data = t at h ⊢
  split at h
  · cases h
  · split at h
    · cases h
    · injection h with h
      subst h
      split <;> rename_i hlen
      · have h1 : (trimWs (t.take 217)).length ≤ 217 :=
          le_trans (length_trimWs_le _) (by simp)
        constructor
        · simp only [String.data]
          rw [List.length_append]
          simp only [List.length_cons, List.length_nil]
          omega
        · intro _
          rw [List.length_append]
          simp only [List.length_cons, List.length_nil]
          omega
      · constructor
        · show t.length ≤ 220
          omega
        · intro hgt
          exact absurd hgt hlen

/-- Witness for C10 at the concrete input "hi". -/
theorem c10_length_budget_witness :
    ("hi" : String).data.length ≤ 220 ∧
      ((cleanCore ("hi" : String).data).length > 220 → ("hi" : String).data.length ≤ 218) :=
  c10_length_budget "hi" "hi" (by decide)


theorem stripEq_head_ne {p0 c : Char} (ps cs : List Char) (h : p0 ≠ c) :
    stripEq (p0 :: ps) (c :: cs) = none := by
  rw [stripEq, if_neg (by simpa using h)]

theorem replF_id (p0 : Char) (ps repl : List Char) : ∀ (f : Nat) (s : List Char), p0 ∉ s →
    replF (p0 :: ps) repl f s = s := by
  intro f
  induction f with
  | zero => intro s _; rfl
  | succ f ih =>
    intro s hs
    cases s with
    | nil => rfl
    | cons c cs =>
      rw [replF, stripEq_head_ne ps cs (fun he => hs (by rw [he]; exact List.mem_cons_self _ _))]
      rw [ih cs (fun hm => hs (List.mem_cons_of_mem _ hm))]

theorem decodeEntities_id (s : List Char) (h : '&' ∉ s) : decodeEntities s = s := by
  rw [decodeEntities]
  unfold replaceSubstr
  rw [replF_id '&' _ _ _ _ h, replF_id '&' _ _ _ _ h, replF_id '&' _ _ _ _ h,
    replF_id '&' _ _ _ _ h, replF_id '&' _ _ _ _ h, replF_id '&' _ _ _ _ h]

theorem ciEq_lt_eq (c : Char) : ciEq '<' c = (c == '<') := by
  rw [ciEq]
  rw [show ('<').toNat = 60 from rfl]
  simp

theorem mBrR_head_ne {c : Char} (cs : List Char) (h : c ≠ '<') : mBrR (c :: cs) = none := by
  rw [mBrR, stripCI, if_neg (by rw [ciEq_lt_eq]; simpa using h)]

theorem mTagR_head_ne (w : List Char) {c : Char} (cs : List Char) (h : c ≠ '<') :
    mTagR w (c :: cs) = none := by
  have hd : mTagR w (c :: cs) =
      if c = '<' then
        (match cs with
         | '/' :: rest2 => (stripCI w rest2).bind expectGt
         | _ => (stripCI w cs).bind expectGt)
      else none := rfl
  rw [hd, if_neg h]

theorem m7R_head_ne {c : Char} (cs : List Char) (h : c ≠ '<') : m7R (c :: cs) = none := by
  rw [m7R, if_neg h]

theorem gsubF_id (try_ : List Char → Option (List Char)) (repl : List Char) :
    ∀ (f : Nat) (s : List Char), (∀ t, t <:+ s → t ≠ [] → try_ t = none) →
    gsubF try_ repl f s = s := by
  intro f
  induction f with
  | zero => intro s _; rfl
  | succ f ih =>
    intro s H
    cases s with
    | nil => rfl
    | cons c cs =>
      rw [gsubF, H (c :: cs) (List.suffix_refl _) (by simp)]
      rw [ih cs (fun t ht hne => H t (ht.trans (List.suffix_cons c cs)) hne)]

theorem stripMarkup_id (s : List Char) (h : '<' ∉ s) : stripMarkup s = s := by
  have hb : gsubF mBrR [' '] s.length s = s := by
    refine gsubF_id _ _ _ _ ?_
    rintro (_ | ⟨c, cs⟩) ht hne
    · exact absurd rfl hne
    · exact mBrR_head_ne cs (fun he => h (he ▸ ht.subset (List.mem_cons_self _ _)))
  have htag : ∀ (w : List Char) (repl : List Char), gsubF (mTagR w) repl s.length s = s := by
    intro w repl
    refine gsubF_id _ _ _ _ ?_
    rintro (_ | ⟨c, cs⟩) ht hne
    · exact absurd rfl hne
    · exact mTagR_head_ne w cs (fun he => h (he ▸ ht.subset (List.mem_cons_self _ _)))
  have h7 : gsubF m7R [' '] s.length s = s := by
    refine gsubF_id _ _ _ _ ?_
    rintro (_ | ⟨c, cs⟩) ht hne
    · exact absurd rfl hne
    · exact m7R_head_ne cs (fun he => h (he ▸ ht.subset (List.mem_cons_self _ _)))
  rw [stripMarkup]
  simp only [hb, htag, h7]

theorem collapseF_id : ∀ (f : Nat) (l : List Char), (∀ c ∈ l, isWsB c = false) →
    collapseF f l = l := by
  intro f
  induction f with
  | zero => intro l _; rfl
  | succ f ih =>
    intro l h
    cases l with
    | nil => rfl
    | cons c cs =>
      rw [collapseF, if_neg (by simp [h c (List.mem_cons_self _ _)])]
      rw [ih cs (fun d hd => h d (List.mem_cons_of_mem _ hd))]

theorem dropWhile_ws_id (l : List Char) (h : ∀ c ∈ l, isWsB c = false) :
    l.dropWhile isWsB = l := by
  cases l with
  | nil => rfl
  | cons c cs =>
    rw [List.dropWhile_cons, if_neg (by simp [h c (List.mem_cons_self _ _)])]

theorem trimRight_id (l : List Char) (h : ∀ c ∈ l, isWsB c = false) :
    trimRight l = l := by
  rw [trimRight, dropWhile_ws_id l.reverse (fun c hc => h c (List.mem_reverse.mp hc)),
    List.reverse_reverse]

theorem trimWs_id (l : List Char) (h : ∀ c ∈ l, isWsB c = false) : trimWs l = l := by
  rw [trimWs, dropWhile_ws_id l h, trimRight_id l h]

theorem cleanCore_id (l : List Char) (h : ∀ c ∈ l, isWsB c = false ∧ c ≠ '<' ∧ c ≠ '&') :
    cleanCore l = l := by
  rw [cleanCore, decodeEntities_id l (fun hm => (h _ hm).2.2 rfl),
    stripMarkup_id l (fun hm => (h _ hm).2.1 rfl), collapseWs,
    collapseF_id _ l (fun c hc => (h c hc).1), trimWs_id l (fun c hc => (h c hc).1)]

/-- C4 (amended): for every 300-character input of plain non-whitespace
text with no markup (no whitespace, no `<`, no `&`), `cleanSnippet`
returns exactly the first 217 characters followed by a single ellipsis
character — 218 characters total — and the collapsed result (the full 300
characters) exceeds 220, so truncation occurs. -/
theorem c4_plain_truncation : ∀ s : String, s.data.length = 300 →
    (∀ c ∈ s.data, isWsB c = false ∧ c ≠ '<' ∧ c ≠ '&') →
    cleanSnippet (some s) = some (String.mk (s.data.take 217 ++ ['…'])) ∧
    (String.mk (s.data.take 217 ++ ['…'])).data.length = 218 ∧
    (cleanCore s.data).length > 220 := by
  intro s hlen h
  have hcore : cleanCore s.data = s.data := cleanCore_id s.data h
  have hne : s.data ≠ [] := by intro h0; rw [h0] at hlen; cases hlen
  refine ⟨?_, ?_, ?_⟩
  · simp only [cleanSnippet]
    rw [if_neg hne, hcore, if_neg hne, if_pos (by omega)]
    rw [trimWs_id _ (fun c hc => (h c (List.take_subset _ _ hc)).1)]
  · show (s.data.take 217 ++ ['…']).length = 218
    rw [List.length_append, List.length_take]
    simp [hlen]
  · rw [hcore]; omega

set_option maxRecDepth 8000 in
/-- Witness for C4 at the 300-character input `aaa...a`. -/
theorem c4_plain_truncation_witness :
    cleanSnippet (some (String.mk (List.replicate 300 'a'))) =
      some (String.mk ((String.mk (List.replicate 300 'a')).data.take 217 ++ ['…'])) ∧
    (String.mk ((String.mk (List.replicate 300 'a')).data.take 217 ++ ['…'])).data.length = 218 ∧
    (cleanCore (String.mk (List.replicate 300 'a')).data).length > 220 :=
  c4_plain_truncation _ (by decide) (by decide)

set_option maxRecDepth 8000 in
/-- C4 (counterexample): a 300-character plain-text input with no markup
(216 `a`s, one space, 83 `a`s) yields 217 output characters, not 218: the
space at position 216 is trimmed from the truncated 217-character prefix
before the ellipsis is appended. -/
theorem c4_space_near_cut_cex :
    ((String.mk (List.replicate 216 'a' ++ ' ' :: List.replicate 83 'a')).data.length = 300) ∧
    (∀ c ∈ (String.mk (List.replicate 216 'a' ++ ' ' :: List.replicate 83 'a')).data,
       c ≠ '<' ∧ c ≠ '>' ∧ c ≠ '&') ∧
    (cleanSnippet (some (String.mk (List.replicate 216 'a' ++ ' ' :: List.replicate 83 'a')))).map
      (fun r => r.data.length) = some 217 := by decide


theorem hasGt_iff : ∀ l : List Char, hasGt l = true ↔ '>' ∈ l := by
  intro l
  induction l with
  | nil => simp [hasGt]
  | cons c cs ih =>
    rw [hasGt, Bool.or_eq_true, beq_iff_eq, ih, List.mem_cons]
    constructor
    · rintro (rfl | h)
      exacts [Or.inl rfl, Or.inr h]
    · rintro (rfl | h)
      exacts [Or.inl rfl, Or.inr h]

theorem hasGt_false_iff (l : List Char) : hasGt l = false ↔ '>' ∉ l := by
  rw [← hasGt_iff]
  cases hasGt l <;> simp

theorem hasGt_append (l1 l2 : List Char) : hasGt (l1 ++ l2) = (hasGt l1 || hasGt l2) := by
  induction l1 with
  | nil => simp [hasGt]
  | cons c cs ih => simp [hasGt, ih, Bool.or_assoc]

theorem noTag_cons_ne {c : Char} (cs : List Char) (h : c ≠ '<') :
    noTag (c :: cs) = noTag cs := by
  rw [noTag, if_neg h, Bool.true_and]

theorem noTag_cons_lt (cs : List Char) : noTag ('<' :: cs) = (gtOk cs && noTag cs) := by
  rw [noTag, if_pos rfl]

theorem noTag_tail {c : Char} {cs : List Char} (h : noTag (c :: cs) = true) :
    noTag cs = true := by
  rw [noTag, Bool.and_eq_true] at h
  exact h.2

theorem noTag_single (c : Char) : noTag [c] = true := by
  by_cases hc : c = '<' <;> simp [noTag, gtOk, hasGt, hc]

theorem gtOk_of_no_gt {l : List Char} (h : hasGt l = false) : gtOk l = true := by
  cases l with
  | nil => rfl
  | cons c cs =>
    rw [hasGt, Bool.or_eq_false_iff] at h
    rw [gtOk, h.2]
    simp

theorem noTag_dropWhile (p : Char → Bool) (l : List Char) (h : noTag l = true) :
    noTag (l.dropWhile p) = true := by
  induction l with
  | nil => exact h
  | cons c cs ih =>
    rw [List.dropWhile_cons]
    split
    · exact ih (noTag_tail h)
    · exact h

theorem hasGt_sub {l m : List Char} (hsub : ∀ a, a ∈ m → a ∈ l) (h : hasGt l = false) :
    hasGt m = false := by
  rw [hasGt_false_iff] at h ⊢
  exact fun hm => h (hsub _ hm)

theorem noTag_take (n : Nat) (l : List Char) (h : noTag l = true) :
    noTag (l.take n) = true := by
  induction l generalizing n with
  | nil => simp [List.take_nil]; rfl
  | cons c cs ih =>
    cases n with
    | zero => rfl
    | succ n =>
      rw [List.take_succ_cons]
      by_cases hc : c = '<'
      · subst hc
        rw [noTag_cons_lt] at h ⊢
        rw [Bool.and_eq_true] at h ⊢
        obtain ⟨hg, hn⟩ := h
        refine ⟨?_, ih n hn⟩
        cases cs with
        | nil => simp [List.take_nil]; rfl
        | cons d ds =>
          cases n with
          | zero => rfl
          | succ n =>
            rw [List.take_succ_cons]
            rw [gtOk] at hg ⊢
            rw [Bool.or_eq_true] at hg ⊢
            rcases hg with hd | hds
            · exact Or.inl hd
            · rw [Bool.not_eq_true'] at hds
              refine Or.inr ?_
              rw [hasGt_sub (fun a ha => (List.take_subset _ _ ha)) hds]
              rfl
      · rw [noTag_cons_ne _ hc] at h
        rw [noTag_cons_ne _ hc]
        exact ih n h

theorem noTag_prefix {p l : List Char} (hp : p <+: l) (h : noTag l = true) :
    noTag p = true := by
  rcases hp with ⟨t, rfl⟩
  have := noTag_take p.length (p ++ t) h
  rwa [List.take_left] at this

theorem noTag_trimRight (l : List Char) (h : noTag l = true) :
    noTag (trimRight l) = true := by
  refine noTag_prefix ?_ h
  rw [trimRight]
  rw [← List.reverse_suffix]
  simp [List.dropWhile_suffix]

theorem noTag_append_one {l : List Char} {c : Char} (h : noTag l = true) (hc : c ≠ '>') :
    noTag (l ++ [c]) = true := by
  induction l with
  | nil => simpa using noTag_single c
  | cons d ds ih =>
    rw [List.cons_append]
    by_cases hd : d = '<'
    · subst hd
      rw [noTag_cons_lt] at h
      rw [Bool.and_eq_true] at h
      obtain ⟨hg, hn⟩ := h
      rw [noTag_cons_lt, Bool.and_eq_true]
      refine ⟨?_, ih hn⟩
      cases ds with
      | nil =>
        show gtOk [c] = true
        rw [gtOk, hasGt]
        simp
      | cons e es =>
        rw [List.cons_append, gtOk, Bool.or_eq_true]
        rw [gtOk, Bool.or_eq_true] at hg
        rcases hg with he | hes
        · exact Or.inl he
        · rw [Bool.not_eq_true'] at hes
          refine Or.inr ?_
          have hfin : hasGt (es ++ [c]) = false := by
            rw [hasGt_append, hes]
            simp [hasGt, hc]
          rw [hfin]
          rfl
    · rw [noTag_cons_ne _ hd] at h
      rw [noTag_cons_ne _ hd]
      exact ih h

theorem gsubF_nil (try_ : List Char → Option (List Char)) (repl : List Char) (f : Nat) :
    gsubF try_ repl f [] = [] := by
  cases f <;> rfl

theorem collapseF_gt_head (f : Nat) (ds : List Char) :
    ∃ out, collapseF f ('>' :: ds) = '>' :: out := by
  cases f with
  | zero => exact ⟨ds, rfl⟩
  | succ f =>
    rw [collapseF, if_neg (by decide)]
    exact ⟨_, rfl⟩

theorem hasGt_collapseF : ∀ (f : Nat) (l : List Char), hasGt l = false →
    hasGt (collapseF f l) = false := by
  intro f
  induction f with
  | zero => intro l h; exact h
  | succ f ih =>
    intro l h
    cases l with
    | nil => exact h
    | cons c cs =>
      rw [hasGt, Bool.or_eq_false_iff] at h
      rw [collapseF]
      split
      · rw [hasGt, Bool.or_eq_false_iff]
        refine ⟨by decide, ih _ (hasGt_sub (fun a ha => (List.dropWhile_sublist isWsB).subset ha) h.2)⟩
      · rw [hasGt, Bool.or_eq_false_iff]
        exact ⟨h.1, ih _ h.2⟩

theorem noTag_collapseF : ∀ (f : Nat) (l : List Char), noTag l = true →
    noTag (collapseF f l) = true := by
  intro f
  induction f with
  | zero => intro l h; exact h
  | succ f ih =>
    intro l h
    cases l with
    | nil => exact h
    | cons c cs =>
      rw [collapseF]
      split <;> rename_i hws
      · rw [noTag_cons_ne _ (by decide)]
        exact ih _ (noTag_dropWhile _ _ (noTag_tail h))
      · by_cases hc : c = '<'
        · subst hc
          rw [noTag_cons_lt, Bool.and_eq_true] at h
          rw [noTag_cons_lt, Bool.and_eq_true]
          refine ⟨?_, ih _ h.2⟩
          cases cs with
          | nil => rw [show collapseF f [] = [] by cases f <;> rfl]; rfl
          | cons d ds =>
            by_cases hdgt : d = '>'
            · subst hdgt
              obtain ⟨out, hout⟩ := collapseF_gt_head f ds
              rw [hout, gtOk]
              simp
            · have hds : hasGt ds = false := by
                rw [gtOk, Bool.or_eq_true] at h
                rcases h.1 with hd | hds
                · rw [beq_iff_eq] at hd
                  exact absurd hd hdgt
                · rw [Bool.not_eq_true'] at hds
                  exact hds
              have hfull : hasGt (d :: ds) = false := by
                rw [hasGt, Bool.or_eq_false_iff]
                exact ⟨by simpa using hdgt, hds⟩
              exact gtOk_of_no_gt (hasGt_collapseF f _ hfull)
        · rw [noTag_cons_ne _ hc] at h ⊢
          exact ih _ h

theorem expectGt_eq (d : Char) (ds : List Char) :
    expectGt (d :: ds) = if d = '>' then some ds else none := by
  by_cases hd : d = '>'
  · subst hd; simp [expectGt]
  · simp only [expectGt]
    split
    · rename_i heq
      injection heq with h1 _
      exact absurd h1 (by simpa using hd)
    · rw [if_neg hd]

theorem takeWhile_cons_head {p : Char → Bool} :
    ∀ {l : List Char} {a : Char} {t : List Char}, l.takeWhile p = a :: t → p a = true := by
  intro l a t h
  cases l with
  | nil => cases h
  | cons x xs =>
    rw [List.takeWhile_cons] at h
    split at h
    · injection h with h1 _
      subst h1
      assumption
    · cases h

theorem dropWhile_cons_head {p : Char → Bool} :
    ∀ {l : List Char} {d : Char} {ds : List Char}, l.dropWhile p = d :: ds → p d = false := by
  intro l d ds h
  induction l with
  | nil => cases h
  | cons x xs ih =>
    rw [List.dropWhile_cons] at h
    split at h <;> rename_i hpx
    · exact ih h
    · injection h with h1 _
      subst h1
      simpa using hpx

theorem m7R_cons_eq (c : Char) (cs : List Char) :
    m7R (c :: cs) =
      if c = '<' then
        (match cs.takeWhile (fun d => !(d == '>')) with
         | [] => none
         | _ :: _ => expectGt (cs.dropWhile (fun d => !(d == '>'))))
      else none := rfl

theorem m7R_cons_ite (c : Char) (cs : List Char) :
    m7R (c :: cs) =
      if c = '<' then
        if cs.takeWhile (fun d => !(d == '>')) = [] then none
        else expectGt (cs.dropWhile (fun d => !(d == '>')))
      else none := by
  rw [m7R_cons_eq]
  by_cases hc : c = '<'
  · rw [if_pos hc, if_pos hc]
    cases htw : cs.takeWhile (fun d => !(d == '>')) with
    | nil => rw [if_pos rfl]
    | cons a t => rw [if_neg (by simp)]
  · rw [if_neg hc, if_neg hc]

theorem m7R_some {s r : List Char} (h : m7R s = some r) :
    ∃ c0 t, s = '<' :: ((c0 :: t) ++ '>' :: r) ∧ (c0 == '>') = false := by
  cases s with
  | nil => cases h
  | cons c cs =>
    rw [m7R_cons_ite] at h
    by_cases hc : c = '<'
    · rw [if_pos hc] at h
      subst hc
      by_cases htw : cs.takeWhile (fun d => !(d == '>')) = []
      · rw [if_pos htw] at h
        cases h
      · rw [if_neg htw] at h
        obtain ⟨c0, t, htw'⟩ := List.exists_cons_of_ne_nil htw
        cases hdw : cs.dropWhile (fun d => !(d == '>')) with
        | nil => rw [hdw] at h; cases h
        | cons d ds =>
          rw [hdw, expectGt_eq] at h
          by_cases hd : d = '>'
          · rw [if_pos hd] at h
            subst hd
            injection h with h1
            subst h1
            refine ⟨c0, t, ?_, by simpa using takeWhile_cons_head htw'⟩
            have hsplit := List.takeWhile_append_dropWhile (p := fun d => !(d == '>')) (l := cs)
            rw [htw', hdw] at hsplit
            rw [← hsplit]
          · rw [if_neg hd] at h
            cases h
    · rw [if_neg hc] at h
      cases h

theorem m7R_some_len {s r : List Char} (h : m7R s = some r) : r.length + 3 ≤ s.length := by
  obtain ⟨c0, t, rfl, -⟩ := m7R_some h
  simp [List.length_append]

theorem dropWhile_eq_nil_no_gt {cs : List Char}
    (h : cs.dropWhile (fun d => !(d == '>')) = []) : hasGt cs = false := by
  rw [hasGt_false_iff]
  intro hmem
  have := List.dropWhile_eq_nil_iff.mp h
  have hgt := this '>' hmem
  simp at hgt

theorem m7R_none_of_no_gt {c : Char} {cs : List Char} (h : hasGt (c :: cs) = false) :
    m7R (c :: cs) = none := by
  by_cases hc : c = '<'
  · subst hc
    rw [m7R_cons_eq, if_pos rfl]
    cases htw : cs.takeWhile (fun d => !(d == '>')) with
    | nil => rfl
    | cons c0 t =>
      cases hdw : cs.dropWhile (fun d => !(d == '>')) with
      | nil => rfl
      | cons d ds =>
        exfalso
        have hd : d = '>' := by
          have := dropWhile_cons_head hdw
          simpa using this
        rw [hasGt, Bool.or_eq_false_iff, hasGt_false_iff] at h
        subst hd
        exact h.2 ((List.dropWhile_sublist _).subset (hdw ▸ List.mem_cons_self _ _))
  · exact m7R_head_ne cs hc

theorem takeWhile_nil_cases {cs : List Char}
    (h : cs.takeWhile (fun d => !(d == '>')) = []) :
    cs = [] ∨ ∃ ds, cs = '>' :: ds := by
  cases cs with
  | nil => exact Or.inl rfl
  | cons c0 ds =>
    rw [List.takeWhile_cons] at h
    split at h <;> rename_i hq
    · cases h
    · refine Or.inr ⟨ds, ?_⟩
      have : c0 = '>' := by simpa using hq
      rw [this]

theorem gsubF_m7_id {s : List Char} (hng : hasGt s = false) (f : Nat) :
    gsubF m7R [' '] f s = s := by
  refine gsubF_id _ _ _ _ ?_
  rintro (_ | ⟨c, cs⟩) ht hne
  · exact absurd rfl hne
  · refine m7R_none_of_no_gt ?_
    exact hasGt_sub (fun a ha => ht.subset ha) hng

theorem noTag_gsub_m7 : ∀ (f : Nat) (s : List Char), s.length ≤ f →
    noTag (gsubF m7R [' '] f s) = true := by
  intro f
  induction f with
  | zero =>
    intro s hs
    rw [List.length_eq_zero.mp (Nat.le_zero.mp hs)]
    rfl
  | succ f ih =>
    intro s hs
    cases s with
    | nil => rfl
    | cons c cs =>
      rw [gsubF]
      cases hm : m7R (c :: cs) with
      | some r =>
        have hr : r.length ≤ f := by
          have := m7R_some_len hm
          simp only [List.length_cons] at this hs
          omega
        show noTag (' ' :: gsubF m7R [' '] f r) = true
        rw [noTag_cons_ne _ (by decide)]
        exact ih r hr
      | none =>
        have hcs : cs.length ≤ f := by
          simp only [List.length_cons] at hs
          omega
        have hnt := ih cs hcs
        by_cases hc : c = '<'
        · subst hc
          rw [noTag_cons_lt, Bool.and_eq_true]
          refine ⟨?_, hnt⟩
          rw [m7R_cons_ite, if_pos rfl] at hm
          by_cases htw : cs.takeWhile (fun d => !(d == '>')) = []
          · rcases takeWhile_nil_cases htw with rfl | ⟨ds, rfl⟩
            · rw [gsubF_nil]; rfl
            · have hf : ∃ f', f = f' + 1 := by
                cases f with
                | zero => simp at hcs
                | succ f' => exact ⟨f', rfl⟩
              obtain ⟨f', rfl⟩ := hf
              rw [gsubF, m7R_head_ne ds (by decide)]
              rw [gtOk]
              simp
          · rw [if_neg htw] at hm
            cases hdw : cs.dropWhile (fun d => !(d == '>')) with
            | nil =>
              have hng : hasGt cs = false := dropWhile_eq_nil_no_gt hdw
              rw [gsubF_m7_id hng]
              exact gtOk_of_no_gt hng
            | cons d ds =>
              exfalso
              have hd : d = '>' := by simpa using dropWhile_cons_head hdw
              rw [hdw, expectGt_eq, if_pos hd] at hm
              cases hm
        · rw [noTag_cons_ne _ hc]
          exact hnt

theorem noTag_stripMarkup (s : List Char) : noTag (stripMarkup s) = true := by
  simp only [stripMarkup]
  exact noTag_gsub_m7 _ _ le_rfl

theorem noTag_cleanCore (s : List Char) : noTag (cleanCore s) = true := by
  rw [cleanCore, trimWs]
  exact noTag_trimRight _ (noTag_dropWhile _ _ (noTag_collapseF _ _ (noTag_stripMarkup _)))

theorem cleanSnippet_noTag : ∀ (s r : String), cleanSnippet (some s) = some r →
    noTag r.data = true := by
  intro s r h
  simp only [cleanSnippet] at h
  have hnt : noTag (cleanCore s.data) = true := noTag_cleanCore s.data
  generalize hg : cleanCore s.data = t at h hnt
  split at h
  · cases h
  · split at h
    · cases h
    · rw [Option.some_inj] at h
      subst h
      show noTag (if t.length > 220 then trimWs (t.take 217) ++ ['…'] else t) = true
      split
      · refine noTag_append_one ?_ (by decide)
        rw [trimWs]
        exact noTag_trimRight _ (noTag_dropWhile _ _ (noTag_take _ _ hnt))
      · exact hnt

/-- C3 (counterexample): the claim that the output never contains `<` or
`>` fails: the input `"&lt;"` decodes to the single character `<`, which no
structural rule removes (every tag rule requires a closing `>`), so the
output is `"<"`. -/
theorem c3_lt_output_cex :
    cleanSnippet (some "&lt;") = some "<" ∧ '<' ∈ ("<" : String).data := by decide

/-- C3 (amended): any result string produced by `cleanSnippet` contains no
complete tag: no substring of the form `<` ++ body ++ `>` with a non-empty
`>`-free body survives (`noTag`); isolated `<` or `>` characters, e.g.
decoded from `&lt;` or `&gt;`, may remain. -/
theorem c3_no_complete_tag : ∀ (s r : String), cleanSnippet (some s) = some r →
    noTag r.data = true := fun s r h => cleanSnippet_noTag s r h

/-- Witness for C3 at the input `"x&lt;y"`, whose output `"x<y"` keeps the
isolated decoded `<`. -/
theorem c3_no_complete_tag_witness : noTag ("x<y" : String).data = true :=
  c3_no_complete_tag "x&lt;y" "x<y" (by decide)


theorem stripCI_cons_some {p : Char} {ps t r : List Char} (h : stripCI (p :: ps) t = some r) :
    ∃ c cs, t = c :: cs ∧ ciEq p c = true ∧ stripCI ps cs = some r := by
  cases t with
  | nil => cases h
  | cons c cs =>
    rw [stripCI] at h
    split at h <;> rename_i hci
    · exact ⟨c, cs, rfl, hci, h⟩
    · cases h

theorem stripCI_nil_some {t r : List Char} (h : stripCI [] t = some r) : r = t := by
  rw [stripCI] at h
  injection h with h
  exact h.symm

theorem stripCI_sub : ∀ {ps t r : List Char}, stripCI ps t = some r → ∀ a ∈ r, a ∈ t := by
  intro ps
  induction ps with
  | nil =>
    intro t r h a ha
    rw [stripCI_nil_some h] at ha
    exact ha
  | cons p ps ih =>
    intro t r h a ha
    obtain ⟨c, cs, rfl, -, h2⟩ := stripCI_cons_some h
    exact List.mem_cons_of_mem _ (ih h2 a ha)

theorem ciEq_true_cases {p c : Char} (h : ciEq p c = true) :
    c = p ∨ (97 ≤ p.toNat ∧ c.toNat + 32 = p.toNat) := by
  rw [ciEq, Bool.or_eq_true, beq_iff_eq] at h
  rcases h with h | h
  · exact Or.inl h
  · rw [Bool.and_eq_true, Bool.and_eq_true] at h
    obtain ⟨⟨h1, -⟩, h3⟩ := h
    refine Or.inr ⟨of_decide_eq_true h1, ?_⟩
    exact beq_iff_eq.mp h3

theorem ciEq_letter_ne_gt {p c : Char} (hp : 97 ≤ p.toNat) (h : ciEq p c = true) :
    c ≠ '>' := by
  intro he
  subst he
  rcases ciEq_true_cases h with h | ⟨-, h⟩
  · rw [← h] at hp
    exact absurd hp (by decide)
  · have : ('>').toNat = 62 := rfl
    omega

theorem noTag_block {c0 : Char} {rest : List Char}
    (h : noTag ('<' :: c0 :: rest) = true) (hc0 : c0 ≠ '>') (hgt : '>' ∈ c0 :: rest) :
    False := by
  rw [noTag_cons_lt, Bool.and_eq_true] at h
  have hg := h.1
  rw [gtOk, Bool.or_eq_true] at hg
  rcases hg with hg | hg
  · exact hc0 (by simpa using hg)
  · rw [Bool.not_eq_true', hasGt_false_iff] at hg
    rcases List.mem_cons.mp hgt with he | he
    · exact hc0 he.symm
    · exact hg he

theorem noTag_m7R_none {t : List Char} (h : noTag t = true) : m7R t = none := by
  cases hm : m7R t with
  | none => rfl
  | some r =>
    exfalso
    obtain ⟨c0, mid, rfl, hc0⟩ := m7R_some hm
    refine noTag_block h (by simpa using hc0) ?_
    simp

theorem mBrR_eq_of_strip {t r1 : List Char} (h : stripCI ['<', 'b', 'r'] t = some r1) :
    mBrR t = (match r1.dropWhile isWsB with
              | '/' :: '>' :: r => some r
              | '>' :: r => some r
              | _ => none) := by
  rw [mBrR, h]

theorem noTag_mBrR_none {t : List Char} (h : noTag t = true) : mBrR t = none := by
  cases hm : mBrR t with
  | none => rfl
  | some r =>
    exfalso
    cases hstrip : stripCI ['<', 'b', 'r'] t with
    | none => rw [mBrR, hstrip] at hm; cases hm
    | some r1 =>
      rw [mBrR_eq_of_strip hstrip] at hm
      obtain ⟨c, cs, rfl, hci, h2⟩ := stripCI_cons_some hstrip
      have hc : c = '<' := by
        rcases ciEq_true_cases hci with h' | ⟨hge, -⟩
        · exact h'
        · exact absurd hge (by decide)
      subst hc
      obtain ⟨x1, cs1, rfl, hci1, h3⟩ := stripCI_cons_some h2
      have hx1 : x1 ≠ '>' := ciEq_letter_ne_gt (by decide) hci1
      obtain ⟨x2, cs2, rfl, hci2, h4⟩ := stripCI_cons_some h3
      have hr1 : r1 = cs2 := stripCI_nil_some h4
      rw [hr1] at hm
      have hgtr : '>' ∈ cs2 := by
        have hsub := (List.dropWhile_sublist isWsB (l := cs2)).subset
        split at hm <;> rename_i heq
        · exact hsub (heq ▸ List.mem_cons_of_mem _ (List.mem_cons_self _ _))
        · exact hsub (heq ▸ List.mem_cons_self _ _)
        · cases hm
      exact noTag_block h hx1
        (List.mem_cons_of_mem _ (List.mem_cons_of_mem _ hgtr))

theorem expectGt_some {r3 r : List Char} (h : expectGt r3 = some r) : r3 = '>' :: r := by
  cases r3 with
  | nil => cases h
  | cons d ds =>
    rw [expectGt_eq] at h
    split at h <;> rename_i hd
    · injection h with h
      rw [hd, h]
    · cases h

theorem mTagR_cons_eq (w : List Char) (c : Char) (cs : List Char) :
    mTagR w (c :: cs) =
      if c = '<' then
        (match cs with
         | '/' :: rest2 => (stripCI w rest2).bind expectGt
         | _ => (stripCI w cs).bind expectGt)
      else none := rfl

theorem noTag_mTagR_none {w0 : Char} {w' : List Char} (hw : ∀ c, ciEq w0 c = true → c ≠ '>')
    {t : List Char} (h : noTag t = true) : mTagR (w0 :: w') t = none := by
  cases hm : mTagR (w0 :: w') t with
  | none => rfl
  | some r =>
    exfalso
    cases t with
    | nil => cases hm
    | cons c cs =>
      rw [mTagR_cons_eq] at hm
      by_cases hc : c = '<'
      · rw [if_pos hc] at hm
        subst hc
        split at hm
        · rename_i rest2
          cases hstrip : stripCI (w0 :: w') rest2 with
          | none => rw [hstrip] at hm; cases hm
          | some r3 =>
            rw [hstrip, Option.bind] at hm
            have hr3 := expectGt_some hm
            refine noTag_block h (by decide) ?_
            exact List.mem_cons_of_mem _ (stripCI_sub hstrip '>' (hr3 ▸ List.mem_cons_self _ _))
        · cases hstrip : stripCI (w0 :: w') cs with
          | none => rw [hstrip] at hm; cases hm
          | some r3 =>
            rw [hstrip, Option.bind] at hm
            have hr3 := expectGt_some hm
            obtain ⟨c1, cs1, rfl, hci1, -⟩ := stripCI_cons_some hstrip
            refine noTag_block h (hw c1 hci1) ?_
            exact stripCI_sub hstrip '>' (hr3 ▸ List.mem_cons_self _ _)
      · rw [if_neg hc] at hm
        cases hm

theorem noTag_append_right : ∀ (p t : List Char), noTag (p ++ t) = true → noTag t = true := by
  intro p
  induction p with
  | nil => intro t h; exact h
  | cons c cs ih => intro t h; exact ih t (noTag_tail h)

theorem noTag_suffix {t s : List Char} (hs : t <:+ s) (h : noTag s = true) :
    noTag t = true := by
  obtain ⟨p, rfl⟩ := hs
  exact noTag_append_right p t h

theorem noTag_stripMarkup_id (s : List Char) (h : noTag s = true) : stripMarkup s = s := by
  have hb : gsubF mBrR [' '] s.length s = s :=
    gsubF_id _ _ _ _ (fun t ht _ => noTag_mBrR_none (noTag_suffix ht h))
  have hli : gsubF (mTagR ['l', 'i']) [' ', '•', ' '] s.length s = s :=
    gsubF_id _ _ _ _ (fun t ht _ => noTag_mTagR_none
      (fun c hc => ciEq_letter_ne_gt (by decide) hc) (noTag_suffix ht h))
  have hstrong : gsubF (mTagR ['s', 't', 'r', 'o', 'n', 'g']) [] s.length s = s :=
    gsubF_id _ _ _ _ (fun t ht _ => noTag_mTagR_none
      (fun c hc => ciEq_letter_ne_gt (by decide) hc) (noTag_suffix ht h))
  have hem : gsubF (mTagR ['e', 'm']) [] s.length s = s :=
    gsubF_id _ _ _ _ (fun t ht _ => noTag_mTagR_none
      (fun c hc => ciEq_letter_ne_gt (by decide) hc) (noTag_suffix ht h))
  have hp : gsubF (mTagR ['p']) [' '] s.length s = s :=
    gsubF_id _ _ _ _ (fun t ht _ => noTag_mTagR_none
      (fun c hc => ciEq_letter_ne_gt (by decide) hc) (noTag_suffix ht h))
  have hul : gsubF (mTagR ['u', 'l']) [' '] s.length s = s :=
    gsubF_id _ _ _ _ (fun t ht _ => noTag_mTagR_none
      (fun c hc => ciEq_letter_ne_gt (by decide) hc) (noTag_suffix ht h))
  have h7 : gsubF m7R [' '] s.length s = s :=
    gsubF_id _ _ _ _ (fun t ht _ => noTag_m7R_none (noTag_suffix ht h))
  simp only [stripMarkup, hb, hli, hstrong, hem, hp, hul, h7]


theorem wsOK_tail : ∀ {c : Char} {cs : List Char}, wsOK (c :: cs) = true → wsOK cs = true := by
  intro c cs h
  cases cs with
  | nil => rfl
  | cons d ds =>
    rw [wsOK, Bool.and_eq_true] at h
    exact h.2

theorem wsOK_cons_nonws {c : Char} {l : List Char} (hc : isWsB c = false)
    (hl : wsOK l = true) : wsOK (c :: l) = true := by
  cases l with
  | nil => rw [wsOK, hc]; rfl
  | cons d ds =>
    rw [wsOK, Bool.and_eq_true]
    exact ⟨by rw [hc]; rfl, hl⟩

theorem wsOK_cons_space {l : List Char} (hl : wsOK l = true)
    (hhead : ∀ d, l.head? = some d → isWsB d = false) : wsOK (' ' :: l) = true := by
  cases l with
  | nil => rfl
  | cons d ds =>
    rw [wsOK, Bool.and_eq_true]
    refine ⟨?_, hl⟩
    have hd : isWsB d = false := hhead d rfl
    rw [hd]
    decide

theorem wsOK_single_of {c : Char} {cs : List Char} (h : wsOK (c :: cs) = true) :
    wsOK [c] = true := by
  cases cs with
  | nil => exact h
  | cons d ds =>
    rw [wsOK, Bool.and_eq_true] at h
    have h1 := h.1
    rw [wsOK]
    rw [Bool.or_eq_true] at h1 ⊢
    rcases h1 with h1 | h1
    · exact Or.inl h1
    · rw [Bool.and_eq_true] at h1
      exact Or.inr h1.1

theorem wsOK_append_left : ∀ (p q : List Char), wsOK (p ++ q) = true → wsOK p = true := by
  intro p
  induction p with
  | nil => intro q _; rfl
  | cons c cs ih =>
    intro q h
    cases cs with
    | nil => exact wsOK_single_of h
    | cons d ds =>
      rw [List.cons_append, List.cons_append, wsOK, Bool.and_eq_true] at h
      rw [wsOK, Bool.and_eq_true]
      exact ⟨h.1, ih q h.2⟩

theorem wsOK_take (n : Nat) (l : List Char) (h : wsOK l = true) : wsOK (l.take n) = true :=
  wsOK_append_left _ _ (by rw [List.take_append_drop]; exact h)

theorem wsOK_prefix {p l : List Char} (hp : p <+: l) (h : wsOK l = true) : wsOK p = true := by
  obtain ⟨t, rfl⟩ := hp
  exact wsOK_append_left p t h

theorem wsOK_dropWhile (p : Char → Bool) (l : List Char) (h : wsOK l = true) :
    wsOK (l.dropWhile p) = true := by
  induction l with
  | nil => exact h
  | cons c cs ih =>
    rw [List.dropWhile_cons]
    split
    · exact ih (wsOK_tail h)
    · exact h

theorem wsOK_append_one {l : List Char} {x : Char} (h : wsOK l = true)
    (hx : isWsB x = false) : wsOK (l ++ [x]) = true := by
  induction l with
  | nil => simpa using wsOK_cons_nonws (l := []) hx rfl
  | cons c cs ih =>
    cases cs with
    | nil =>
      rw [List.cons_append, List.nil_append, wsOK, Bool.and_eq_true]
      refine ⟨?_, by rw [wsOK, hx]; rfl⟩
      rw [wsOK] at h
      rw [Bool.or_eq_true] at h ⊢
      rcases h with h | h
      · exact Or.inl h
      · refine Or.inr ?_
        rw [Bool.and_eq_true]
        exact ⟨h, by rw [hx]; rfl⟩
    | cons d ds =>
      rw [List.cons_append, List.cons_append, wsOK, Bool.and_eq_true]
      rw [wsOK, Bool.and_eq_true] at h
      refine ⟨h.1, ?_⟩
      rw [← List.cons_append]
      exact ih h.2

theorem head_dropWhile_not (p : Char → Bool) :
    ∀ (l : List Char) (d : Char), (l.dropWhile p).head? = some d → p d = false := by
  intro l
  induction l with
  | nil => intro d h; cases h
  | cons c cs ih =>
    intro d h
    rw [List.dropWhile_cons] at h
    split at h <;> rename_i hpc
    · exact ih d h
    · injection h with h
      subst h
      simpa using hpc

theorem collapseF_head (f : Nat) (y : List Char)
    (hy : ∀ d, y.head? = some d → isWsB d = false) :
    (collapseF f y).head? = y.head? := by
  cases f with
  | zero => rfl
  | succ f =>
    cases y with
    | nil => rfl
    | cons c cs =>
      rw [collapseF, if_neg (by simp [hy c rfl])]
      rfl

theorem wsOK_collapseF : ∀ (f : Nat) (l : List Char), l.length ≤ f →
    wsOK (collapseF f l) = true := by
  intro f
  induction f with
  | zero =>
    intro l hl
    rw [List.length_eq_zero.mp (Nat.le_zero.mp hl)]
    rfl
  | succ f ih =>
    intro l hl
    cases l with
    | nil => rfl
    | cons c cs =>
      simp only [List.length_cons] at hl
      rw [collapseF]
      split <;> rename_i hws
      · have hlen : (cs.dropWhile isWsB).length ≤ f :=
          le_trans (List.dropWhile_sublist isWsB).length_le (by omega)
        refine wsOK_cons_space (ih _ hlen) ?_
        intro d hd
        rw [collapseF_head f _ (head_dropWhile_not isWsB cs)] at hd
        exact head_dropWhile_not isWsB cs d hd
      · exact wsOK_cons_nonws (by simpa using hws) (ih cs (by omega))

theorem dropWhile_head_id {l : List Char}
    (h : ∀ d, l.head? = some d → isWsB d = false) : l.dropWhile isWsB = l := by
  cases l with
  | nil => rfl
  | cons c cs => rw [List.dropWhile_cons, if_neg (by simp [h c rfl])]

theorem collapseF_id_wsOK : ∀ (f : Nat) (l : List Char), wsOK l = true →
    collapseF f l = l := by
  intro f
  induction f with
  | zero => intro l _; rfl
  | succ f ih =>
    intro l h
    cases l with
    | nil => rfl
    | cons c cs =>
      rw [collapseF]
      split <;> rename_i hws
      · have hsp : c = ' ' ∧ ∀ d, cs.head? = some d → isWsB d = false := by
          cases cs with
          | nil =>
            rw [wsOK, Bool.or_eq_true] at h
            rcases h with h | h
            · rw [hws] at h; cases h
            · exact ⟨by simpa using h, fun d hd => by cases hd⟩
          | cons d ds =>
            rw [wsOK, Bool.and_eq_true, Bool.or_eq_true] at h
            rcases h.1 with h1 | h1
            · rw [hws] at h1; cases h1
            · rw [Bool.and_eq_true] at h1
              refine ⟨by simpa using h1.1, fun e he => ?_⟩
              injection he with he
              subst he
              simpa using h1.2
        rw [hsp.1, dropWhile_head_id hsp.2, ih cs (wsOK_tail h)]
      · rw [ih cs (wsOK_tail h)]

theorem trimRight_id_edge {l : List Char}
    (h : ∀ d, l.getLast? = some d → isWsB d = false) : trimRight l = l := by
  rw [trimRight, dropWhile_head_id, List.reverse_reverse]
  intro d hd
  rw [List.head?_reverse] at hd
  exact h d hd

theorem trimWs_id_edge {l : List Char}
    (hh : ∀ d, l.head? = some d → isWsB d = false)
    (hl : ∀ d, l.getLast? = some d → isWsB d = false) : trimWs l = l := by
  rw [trimWs, dropWhile_head_id hh, trimRight_id_edge hl]

theorem trimRight_pfx (l : List Char) : trimRight l <+: l := by
  rw [trimRight, ← List.reverse_suffix]
  simp [List.dropWhile_suffix]

theorem pfx_head {p l : List Char} (hp : p <+: l) (hne : p ≠ []) : p.head? = l.head? := by
  obtain ⟨t, rfl⟩ := hp
  cases p with
  | nil => exact absurd rfl hne
  | cons c cs => rfl

theorem trimWs_head_not (l : List Char) :
    ∀ d, (trimWs l).head? = some d → isWsB d = false := by
  intro d hd
  rw [trimWs] at hd
  have hne : trimRight (l.dropWhile isWsB) ≠ [] := by
    intro h0
    rw [h0] at hd
    cases hd
  rw [pfx_head (trimRight_pfx _) hne] at hd
  exact head_dropWhile_not isWsB l d hd

theorem trimWs_getLast_not (l : List Char) :
    ∀ d, (trimWs l).getLast? = some d → isWsB d = false := by
  intro d hd
  rw [trimWs, trimRight, List.getLast?_reverse] at hd
  exact head_dropWhile_not isWsB _ d hd

theorem wsOK_trimWs (l : List Char) (h : wsOK l = true) : wsOK (trimWs l) = true := by
  rw [trimWs]
  exact wsOK_prefix (trimRight_pfx _) (wsOK_dropWhile isWsB l h)

theorem strMk_data (r : String) : String.mk r.data = r := by
  rcases r with ⟨d⟩
  rfl

theorem cleanSnippet_fixed {r : String}
    (hne : r.data ≠ [])
    (hamp : '&' ∉ r.data)
    (hnt : noTag r.data = true)
    (hws : wsOK r.data = true)
    (hh : ∀ d, r.data.head? = some d → isWsB d = false)
    (hl : ∀ d, r.data.getLast? = some d → isWsB d = false)
    (hlen : r.data.length ≤ 220) :
    cleanSnippet (some r) = some r := by
  have hcore : cleanCore r.data = r.data := by
    rw [cleanCore, decodeEntities_id _ hamp, noTag_stripMarkup_id _ hnt,
      collapseWs, collapseF_id_wsOK _ _ hws, trimWs_id_edge hh hl]
  simp only [cleanSnippet]
  rw [if_neg hne, hcore, if_neg hne, if_neg (by omega)]

theorem head_append_one {x : List Char} {c : Char}
    (hx : ∀ e, x.head? = some e → isWsB e = false) (hc : isWsB c = false) :
    ∀ d, (x ++ [c]).head? = some d → isWsB d = false := by
  intro d hd
  cases x with
  | nil =>
    rw [List.nil_append] at hd
    injection hd with hd
    rw [← hd]
    exact hc
  | cons a as =>
    rw [List.cons_append] at hd
    injection hd with hd
    rw [← hd]
    exact hx a rfl

/-- C2 (amended): sanitization is idempotent on every output that contains
no `&` character: `cleanSnippet` maps absent to absent, and whenever
`cleanSnippet (some s) = some r` with `'&' ∉ r`, the output `r` is a fixed
point (`cleanSnippet (some r) = some r`).  Re-decoding of entity strings
surviving in the output (e.g. from `&amp;amp;`) is the sole source of
non-idempotence. -/
theorem c2_idempotent_entity_free : ∀ (s r : String),
    cleanSnippet (some s) = some r → '&' ∉ r.data →
    cleanSnippet (some r) = some r := by
  intro s r h hamp
  have hnt : noTag r.data = true := cleanSnippet_noTag s r h
  simp only [cleanSnippet] at h
  have hws_t : wsOK (cleanCore s.data) = true := by
    rw [cleanCore]
    exact wsOK_trimWs _ (wsOK_collapseF _ _ le_rfl)
  have hh_t : ∀ d, (cleanCore s.data).head? = some d → isWsB d = false := by
    rw [cleanCore]
    exact trimWs_head_not _
  have hl_t : ∀ d, (cleanCore s.data).getLast? = some d → isWsB d = false := by
    rw [cleanCore]
    exact trimWs_getLast_not _
  generalize hg : cleanCore s.data = t at h hws_t hh_t hl_t
  split at h
  · cases h
  · split at h <;> rename_i hne_t
    · cases h
    · rw [Option.some_inj] at h
      have hdata : r.data = (if t.length > 220 then trimWs (t.take 217) ++ ['…'] else t) := by
        rw [← h]
      by_cases hbig : t.length > 220
      · rw [if_pos hbig] at hdata
        refine cleanSnippet_fixed ?_ hamp hnt ?_ ?_ ?_ ?_
        · rw [hdata]
          simp
        · rw [hdata]
          exact wsOK_append_one (wsOK_trimWs _ (wsOK_take _ _ hws_t)) (by decide)
        · rw [hdata]
          exact head_append_one (trimWs_head_not _) (by decide)
        · rw [hdata]
          intro d hd
          rw [List.getLast?_concat, Option.some_inj] at hd
          rw [← hd]
          decide
        · rw [hdata, List.length_append]
          have h1 : (trimWs (t.take 217)).length ≤ 217 :=
            le_trans (length_trimWs_le _) (by simp)
          simp only [List.length_cons, List.length_nil]
          omega
      · rw [if_neg hbig] at hdata
        refine cleanSnippet_fixed (by rw [hdata]; exact hne_t) hamp hnt
          (by rw [hdata]; exact hws_t) (by rw [hdata]; exact hh_t)
          (by rw [hdata]; exact hl_t) (by rw [hdata]; omega)

/-- Witness for C2 at the input `"hi &lt;b&gt; x"`, whose output
`"hi x"` is entity-free and a fixed point. -/
theorem c2_idempotent_entity_free_witness : cleanSnippet (some "hi x") = some "hi x" :=
  c2_idempotent_entity_free "hi &lt;b&gt; x" "hi x" (by decide) (by decide)

/-- C2 (counterexample): sanitization is not idempotent: the input
`"&amp;amp;"` sanitizes to `"&amp;"` (the literal text left after one
decoding pass), and sanitizing that output again decodes it to `"&"`. -/
theorem c2_not_idempotent_cex :
    cleanSnippet (cleanSnippet (some "&amp;amp;")) ≠ cleanSnippet (some "&amp;amp;") := by
  decide

end JobBoard
